import Mathlib

/-!
Verification of the factor abstraction in `jaxfg/core/_factors.py`.

The development shallowly embeds the module: numeric 1-D arrays are `List ℚ`,
2-D matrices are `List (List ℚ)`, and n-dimensional arrays whose values are
never read (only their shape matters, as for `scale_tril_inv`) carry an
explicit shape.  Python dictionaries become association lists, Python object
identity becomes an explicit `ident : Nat` field, and the external
variable capability (`VariableBase`, which lives outside this module) is
modelled from the spec as a record of its interface: parameter dimension,
local parameter dimension, retraction, and a no-argument constructor.
-/

set_option autoImplicit false

/-- A 1-D numeric array (e.g. the target vector `b`). -/
abbrev Vec := List ℚ

/-- A 2-D numeric array (e.g. one coefficient matrix `A_i`). -/
abbrev Mat := List (List ℚ)

/-- An n-dimensional numpy/jax array with an explicit shape.  Used for
`scale_tril_inv`, whose entries are never read by this module; only its
shape (`shape[-1]`, tolerating a leading batch dimension) is consumed. -/
structure NDArray where
  shape : List Nat
  data : List ℚ
deriving DecidableEq

/-- Elementwise addition of two equal-length 1-D arrays (`jnp` `+`;
`List.zipWith` truncates to the shorter operand, which is only exercised
on equal lengths in this development). -/
def vadd (x y : Vec) : Vec := List.zipWith (· + ·) x y

/-- Elementwise subtraction of two equal-length 1-D arrays (`jnp` `-`). -/
def vsub (x y : Vec) : Vec := List.zipWith (· - ·) x y

/-- Dot product of two 1-D arrays. -/
def dot (x y : Vec) : ℚ := (List.zipWith (· * ·) x y).sum

/-- Matrix–vector product `A @ x` of a 2-D with a 1-D array. -/
def matvec (A : Mat) (x : Vec) : Vec := A.map (fun row => dot row x)

/-- `jnp.zeros(n)` / `onp.zeros(n)`, an all-zero vector. -/
def zerosVec (n : Nat) : Vec := List.replicate n 0

/-- Add one to component `c` of a vector (a unit step used to probe one
input direction of an affine map). -/
def addUnit (v : Vec) (c : Nat) : Vec := v.set c (v.getD c 0 + 1)

/-- `array.shape[-1]`: the trailing dimension of an array's shape.  Python
raises `IndexError` on an empty (0-d) shape; the default `0` is never
reached for the at-least-2-d `scale_tril_inv` arrays of this module. -/
def trailingDim (a : NDArray) : Nat := a.shape.getLastD 0

/-- Modelled from the spec (the variable abstraction `VariableBase` is
external to this module): a concrete variable class exposes
`get_parameter_dim`, `get_local_parameter_dim` and the retraction
`add_local`; class identity is modelled by `name`. -/
structure VariableType where
  name : String
  parameter_dim : Nat
  local_parameter_dim : Nat
  add_local : Vec → Vec → Vec

/-- A variable instance: its concrete class plus an object identity
(`ident` models CPython's `id`, distinguishing otherwise equal objects). -/
structure Variable where
  vtype : VariableType
  ident : Nat

instance : Inhabited Variable := ⟨⟨⟨"", 0, 0, fun x _ => x⟩, 0⟩⟩

/-- Modelled from the spec: `V()`, the no-argument constructor used by
`unflatten` to synthesize a type-only placeholder instance of class `V`
(fresh object, none of the original instance's identity or state). -/
def VariableType.construct (V : VariableType) : Variable := ⟨V, 0⟩

/-- Modelled from the spec (the `types` module is external to this file):
`types.GroupKey`, a value-equality key of (concrete factor type,
secondary key). -/
structure GroupKey where
  factor_type : String
  secondary_key : List (String × Nat) × Nat

/-- The data of a factor instance that `group_key` and `error_dim` consume:
its concrete class, its connected variables, and its whitening matrix. -/
structure FactorView where
  factor_class : String
  «variables» : List Variable
  scale_tril_inv : NDArray

namespace FactorBase

/-- `FactorBase.error_dim`: `self.scale_tril_inv.shape[-1]` (the comment in
the source notes `[-1]` rather than `[0]` so that a leading batch
dimension of stacked factors is tolerated). -/
def error_dim (f : FactorView) : Nat := trailingDim f.scale_tril_inv

/-- `FactorBase.group_key`: the unique key for grouping factors, built from
the concrete class, the (class, parameter dimension) pair of every
connected variable, and `error_dim`. -/
def group_key (f : FactorView) : GroupKey :=
  { factor_type := f.factor_class
    secondary_key :=
      (f.«variables».map fun v => (v.vtype.name, v.vtype.parameter_dim),
       error_dim f) }

end FactorBase


/-- A Python value as it occurs in a factor's instance dictionary or in a
flatten treedef: arrays, tuples of matrices, tuples of variables, tuples
of variable classes, frozensets of field names, and strings (the field
names stored in treedefs). -/
inductive PyVal where
  | nd (a : NDArray)
  | vec (v : Vec)
  | mats (l : List Mat)
  | vars (vs : List Variable)
  | vtypes (ts : List VariableType)
  | frozset (s : List String)
  | str (s : String)

/-- A Python instance dictionary (`vars(v)` / `v.__dict__`): an insertion-
ordered association list with string keys. -/
abbrev PyDict := List (String × PyVal)

/-- Dictionary lookup `d[k]` / `getattr`, `none` on a missing key. -/
def dictGet (d : PyDict) (k : String) : Option PyVal :=
  match d with
  | [] => none
  | (k2, v) :: rest => if k2 = k then some v else dictGet rest k

/-- Dictionary assignment `d[k] = v`: replaces the value in place if the
key is present (Python dicts keep the original insertion position),
otherwise appends. -/
def dictAssign (d : PyDict) (k : String) (v : PyVal) : PyDict :=
  match d with
  | [] => [(k, v)]
  | (k2, v2) :: rest =>
      if k2 = k then (k2, v) :: rest else (k2, v2) :: dictAssign rest k v

/-- `d.pop(k)`: removes the entry for `k` and returns its value together
with the remaining dictionary; `none` models the `KeyError` on a missing
key. -/
def dictPop (d : PyDict) (k : String) : Option (PyVal × PyDict) :=
  match d with
  | [] => none
  | (k2, v) :: rest =>
      if k2 = k then some (v, rest)
      else (dictPop rest k).map fun p => (p.1, (k2, v) :: p.2)

/-- Key equality for the treedef dictionaries built by `unflatten`; the
only keys ever inserted there are strings (field names), so comparison is
specialized to the `str` constructor. -/
def pyKeyEq (a b : PyVal) : Bool :=
  match a, b with
  | .str s, .str t => s == t
  | _, _ => false

/-- A dictionary whose keys are arbitrary Python values (as produced by
`dict(zip(aux_keys, aux_values))` in `unflatten`). -/
abbrev PyKDict := List (PyVal × PyVal)

/-- Assignment into a value-keyed dictionary, mirroring `dictAssign`. -/
def kdictAssign (d : PyKDict) (k v : PyVal) : PyKDict :=
  match d with
  | [] => [(k, v)]
  | (k2, v2) :: rest =>
      if pyKeyEq k2 k then (k2, v) :: rest else (k2, v2) :: kdictAssign rest k v

/-- `dict(pairs)`: inserts the pairs left to right, later duplicates
overwriting earlier values in place. -/
def kdictOfPairs (l : List (PyVal × PyVal)) : PyKDict :=
  l.foldl (fun d p => kdictAssign d p.1 p.2) []

/-- `d.pop(k)` on a value-keyed dictionary. -/
def kdictPop (d : PyKDict) (k : PyVal) : Option (PyVal × PyKDict) :=
  match d with
  | [] => none
  | (k2, v) :: rest =>
      if pyKeyEq k2 k then some (v, rest)
      else (kdictPop rest k).map fun p => (p.1, (k2, v) :: p.2)

/-- `cls(**d1, **d2)` keyword merging: CPython raises `TypeError` when the
two dictionaries share a key. -/
def kwargsMerge (d1 d2 : PyKDict) : Option PyKDict :=
  if d1.any (fun p => d2.any fun q => pyKeyEq p.1 q.1) then none
  else some (d1 ++ d2)

/-- Keyword arguments must be strings: converts a value-keyed dictionary to
a string-keyed one, `none` modelling the `TypeError` on a non-string key. -/
def stringKeys (d : PyKDict) : Option PyDict :=
  match d with
  | [] => some []
  | (.str k, v) :: rest => (stringKeys rest).map fun r => (k, v) :: r
  | _ => none

namespace FactorBase

/-- `FactorBase.flatten`, state-passing form.  `v_dict = vars(v)` is the
instance dictionary of the factor (a live reference, not a copy);
`static_fields` is the class attribute `cls._static_fields`.  The two
dictionary comprehensions build fresh dictionaries, `aux_dict` gains the
tuple of connected-variable classes under the key `"variabletypes"`, and
`"variables"` is popped from `array_data` (not from `v_dict`).  The
returned pair is `(children, treedef)`; the second component of the result
is the instance dictionary after the call, so that non-mutation of the
source factor is itself a theorem rather than an assumption.  `none`
models an uncaught Python exception (`AttributeError` on a factor without
a `variables` attribute, `TypeError` iterating a non-tuple of variables,
`KeyError` when `"variables"` was itself listed as static). -/
def flattenSt (static_fields : List String) (v_dict : PyDict) :
    Option (List PyVal × List PyVal) × PyDict :=
  let array_data := v_dict.filter fun kv => ! static_fields.contains kv.1
  let aux_dict := v_dict.filter fun kv => ! (array_data.map Prod.fst).contains kv.1
  match dictGet v_dict "variables" with
  | some (.vars vs) =>
      let aux_dict2 := dictAssign aux_dict "variabletypes" (.vtypes (vs.map Variable.vtype))
      match dictPop array_data "variables" with
      | some (_, array_data2) =>
          (some (array_data2.map Prod.snd,
                 array_data2.map (fun kv => PyVal.str kv.1)
                   ++ aux_dict2.map (fun kv => PyVal.str kv.1)
                   ++ aux_dict2.map Prod.snd),
           v_dict)
      | none => (none, v_dict)
  | some _ => (none, v_dict)
  | none => (none, v_dict)

/-- `FactorBase.flatten` as the pure `(children, treedef)` function. -/
def flatten (static_fields : List String) (v_dict : PyDict) :
    Option (List PyVal × List PyVal) :=
  (flattenSt static_fields v_dict).1

/-- `FactorBase.unflatten`, parametrized by the concrete class's
constructor call `cls(**kwargs)` (`ctor`).  The treedef is sliced into the
numeric field names (`array_keys`), the auxiliary keys and the auxiliary
values; the auxiliary dictionary's `"variabletypes"` entry is popped and
replaced by a `"variables"` tuple of newly constructed placeholder
instances; finally the numeric and auxiliary keyword dictionaries are
merged into the constructor call. -/
def unflatten (ctor : PyDict → Option PyDict) (treedef : List PyVal)
    (children : List PyVal) : Option PyDict :=
  let array_keys := treedef.take children.length
  let aux := treedef.drop children.length
  let aux_keys := aux.take (aux.length / 2)
  let aux_values := aux.drop (aux.length / 2)
  let aux_dict := kdictOfPairs (aux_keys.zip aux_values)
  match kdictPop aux_dict (.str "variabletypes") with
  | some (.vtypes ts, aux_dict2) =>
      let aux_dict3 := kdictAssign aux_dict2 (.str "variables")
        (.vars (ts.map VariableType.construct))
      match kwargsMerge (kdictOfPairs (array_keys.zip children)) aux_dict3 with
      | some kw => (stringKeys kw).bind ctor
      | none => none
  | some _ => none
  | none => none

end FactorBase

namespace LinearFactor

/-- The field names of the frozen dataclass `LinearFactor`, in declaration
order: `variables` and `scale_tril_inv` are inherited from `FactorBase`
(the subclass re-annotates `scale_tril_inv`, which keeps its original
position), then `A_matrices` and `b`.  `_static_fields` is declared with
`init=False` and a plain default, so it is not a parameter of the
generated `__init__`. -/
def fieldNames : List String := ["variables", "scale_tril_inv", "A_matrices", "b"]

/-- `LinearFactor._static_fields`: the class attribute inherited unchanged
from `FactorBase`, the empty frozenset. -/
def static_fields : List String := []

/-- The constructor call `LinearFactor(**kw)`: the generated `__init__`
accepts exactly the keywords `variables`, `scale_tril_inv`, `A_matrices`
and `b` (a missing or unexpected keyword raises `TypeError`) and assigns
them in field-declaration order, which fixes the insertion order of the
new instance dictionary.  `_static_fields` keeps its plain `init=False`
default, so the generated `__init__` never assigns it and it stays a class
attribute, absent from the instance dictionary. -/
def init (kw : PyDict) : Option PyDict :=
  match dictGet kw "variables", dictGet kw "scale_tril_inv",
        dictGet kw "A_matrices", dictGet kw "b" with
  | some v, some s, some a, some bb =>
      if kw.all fun p => fieldNames.contains p.1 then
        some [("variables", v), ("scale_tril_inv", s), ("A_matrices", a), ("b", bb)]
      else none
  | _, _, _, _ => none

/-- The instance dictionary (`vars(f)`) of a `LinearFactor` constructed
from the given field values, in `__init__` assignment order.  Note that
`_static_fields` does not appear: being `init=False` with a plain default
it lives only on the class. -/
def instDict (vs : List Variable) (sti : NDArray) (A : List Mat) (b : Vec) : PyDict :=
  [("variables", .vars vs), ("scale_tril_inv", .nd sti),
   ("A_matrices", .mats A), ("b", .vec b)]

/-- `LinearFactor.flatten`: the inherited classmethod applied with the
class's own (empty) `_static_fields`. -/
def flatten (v_dict : PyDict) : Option (List PyVal × List PyVal) :=
  FactorBase.flatten static_fields v_dict

/-- `LinearFactor.unflatten`: the inherited classmethod, whose final
constructor call is `LinearFactor(**kwargs)`. -/
def unflatten (treedef : List PyVal) (children : List PyVal) : Option PyDict :=
  FactorBase.unflatten init treedef children

end LinearFactor

/-- `LinearFactor.compute_error`: starting from `jnp.zeros_like(self.b)`,
accumulate `A_matrix @ value` over `zip(self.A_matrices, variable_values)`
(`zip` stops at the shorter sequence), then subtract `self.b`. -/
def LinearFactor.compute_error (A_matrices : List Mat) (b : Vec)
    (variable_values : List Vec) : Vec :=
  let linear_component :=
    (A_matrices.zip variable_values).foldl
      (fun acc p => vadd acc (matvec p.1 p.2)) (zerosVec b.length)
  vsub linear_component b

/-- Python's three-argument `zip`, stopping at the shortest sequence. -/
def zip3 {α β γ : Type} : List α → List β → List γ → List (α × β × γ)
  | a :: as, b :: bs, c :: cs => (a, b, c) :: zip3 as bs cs
  | _, _, _ => []

namespace FactorBase

/-- The inner closure of `compute_error_jacobians`: apply each local delta
to its variable's value through the variable's retraction
(`variable.add_local(x=variable_value, local_delta=local_delta)`, over
`zip(self.variables, variable_values, local_deltas)`), then evaluate the
factor's `compute_error` on the perturbed values.  It is parametrized by
the concrete class's `compute_error` (`ce`), the dynamically dispatched
abstract method. -/
def compute_cost_with_local_delta (vars_ : List Variable)
    (ce : List Vec → Vec) (variable_values : List Vec)
    (local_deltas : List Vec) : Vec :=
  ce ((zip3 vars_ variable_values local_deltas).map fun t =>
        t.1.vtype.add_local t.2.1 t.2.2)

/-- Model of `jax.jacfwd` at the input tuple `x`: one Jacobian block per
input vector, block `i` of shape `(|g x|, |x_i|)`, whose entry `(r, c)` is
the unit-step difference of `g` in input direction `(i, c)`.  Forward-mode
differentiation returns the exact Jacobian of the traced program; on the
residual maps of this module (compositions of the affine
`LinearFactor.compute_error` with affine retractions) the exact Jacobian
entry equals this unit-step difference, which keeps the model executable. -/
def jacfwd (g : List Vec → Vec) (x : List Vec) : List Mat :=
  let gx := g x
  (List.range x.length).map fun i =>
    (List.range gx.length).map fun r =>
      (List.range (x.getD i []).length).map fun c =>
        (g (x.set i (addUnit (x.getD i []) c))).getD r 0 - gx.getD r 0

/-- The zero local deltas the Jacobian is evaluated at: one
`onp.zeros(variable.get_local_parameter_dim())` per connected variable. -/
def zeroDeltas (vars_ : List Variable) : List Vec :=
  vars_.map fun v => zerosVec v.vtype.local_parameter_dim

/-- `FactorBase.compute_error_jacobians`: the Jacobian of the error with
respect to the local parametrization, evaluated with `jax.jacfwd` at the
all-zero local deltas. -/
def compute_error_jacobians (vars_ : List Variable) (ce : List Vec → Vec)
    (variable_values : List Vec) : List Mat :=
  jacfwd (compute_cost_with_local_delta vars_ ce variable_values)
    (zeroDeltas vars_)

end FactorBase

/-- A Python object: an identity (modelling CPython's `id`, distinct for
distinct live objects) together with its instance dictionary. -/
structure PyObj where
  ident : Nat
  fields : PyDict

/-- `object.__hash__`: derived from the object id alone — an injective
function of the identity of a live object, never of its field values. -/
def objectHash (o : PyObj) : Nat := o.ident

namespace FactorBase

/-- The `__hash__` of every concrete factor subclass: `__init_subclass__`
executes `cls.__hash__ = object.__hash__` when the subclass is defined, so
factor hashing is identity-based. -/
def hashOf (o : PyObj) : Nat := objectHash o

/-- The `__eq__` generated by `@dataclasses.dataclass(frozen=True)`
(`eq=True` by default): two instances of the same class compare equal when
their field-value tuples are equal. -/
def eqOf (o1 o2 : PyObj) : Prop := o1.fields = o2.fields

end FactorBase


/-- A connected variable with a trivial tangent space, holding value `x`:
retraction is plain vector addition and the local dimension, the parameter
dimension and the value's length coincide. -/
def TrivialFor (v : Variable) (x : Vec) : Prop :=
  v.vtype.add_local = vadd ∧
  v.vtype.local_parameter_dim = v.vtype.parameter_dim ∧
  x.length = v.vtype.parameter_dim


/-- Modelled from the spec: a concrete trivial-tangent variable class
(`RealVectorVariable(2)`): parameter dimension 2, local parameter
dimension 2, retraction by plain vector addition. -/
def V2 : VariableType := ⟨"RealVectorVariable2", 2, 2, vadd⟩

/-- A concrete live variable instance of class `V2`. -/
def var0 : Variable := ⟨V2, 7⟩

/-- The concrete whitening matrix `scale_tril_inv = identity(2)`. -/
def S0 : NDArray := ⟨[2, 2], [1, 0, 0, 1]⟩

/-- The concrete coefficient tuple `A_matrices = ([[1,0],[0,1]],)`. -/
def A0 : List Mat := [[[1, 0], [0, 1]]]

/-- The concrete target vector `b = [1, 1]`. -/
def B0 : Vec := [1, 1]

/-- The instance dictionary of the concrete scenario factor
`LinearFactor(variables=(var0,), scale_tril_inv=S0, A_matrices=A0, b=B0)`. -/
def d0 : PyDict := LinearFactor.instDict [var0] S0 A0 B0

/-- Whether a list of Python values contains a frozenset. -/
def hasFrozset (l : List PyVal) : Bool :=
  l.any fun x =>
    match x with
    | .frozset _ => true
    | _ => false

/-- The concrete scenario factor seen as a `FactorView`: class
`LinearFactor`, one connected variable of class `V2`, whitening matrix
`S0`. -/
def f0 : FactorView := ⟨"LinearFactor", [var0], S0⟩

theorem vadd_getD (x y : Vec) (h : x.length = y.length) (r : Nat) :
    (vadd x y).getD r 0 = x.getD r 0 + y.getD r 0 := by
  induction x generalizing y r with
  | nil =>
    cases y with
    | nil => simp [vadd]
    | cons b ys => simp at h
  | cons a xs ih =>
    cases y with
    | nil => simp at h
    | cons b ys =>
      cases r with
      | zero => simp [vadd]
      | succ r => simpa [vadd] using ih ys (by simpa using h) r

theorem vsub_getD (x y : Vec) (h : x.length = y.length) (r : Nat) :
    (vsub x y).getD r 0 = x.getD r 0 - y.getD r 0 := by
  induction x generalizing y r with
  | nil =>
    cases y with
    | nil => simp [vsub]
    | cons b ys => simp at h
  | cons a xs ih =>
    cases y with
    | nil => simp at h
    | cons b ys =>
      cases r with
      | zero => simp [vsub]
      | succ r => simpa [vsub] using ih ys (by simpa using h) r

theorem vadd_length (x y : Vec) : (vadd x y).length = min x.length y.length := by
  simp [vadd]

theorem vsub_length (x y : Vec) : (vsub x y).length = min x.length y.length := by
  simp [vsub]

theorem zerosVec_succ (n : Nat) : zerosVec (n + 1) = 0 :: zerosVec n := rfl

theorem zerosVec_length (n : Nat) : (zerosVec n).length = n := by
  simp [zerosVec]

theorem vadd_zeros (x : Vec) : vadd x (zerosVec x.length) = x := by
  induction x with
  | nil => rfl
  | cons a xs ih => simpa [vadd, zerosVec_succ] using ih

theorem zerosVec_getD (n r : Nat) : (zerosVec n).getD r 0 = 0 := by
  induction n generalizing r with
  | zero => simp [zerosVec]
  | succ n ih =>
    cases r with
    | zero => simp [zerosVec]
    | succ r => simpa [zerosVec_succ] using ih r

theorem dot_zeros (x : Vec) (n : Nat) : dot x (zerosVec n) = 0 := by
  induction x generalizing n with
  | nil => simp [dot]
  | cons a xs ih =>
    cases n with
    | zero => simp [dot, zerosVec]
    | succ n => simpa [dot, zerosVec_succ] using ih n

theorem dot_vadd (row x y : Vec) (h : x.length = y.length) :
    dot row (vadd x y) = dot row x + dot row y := by
  induction row generalizing x y with
  | nil => simp [dot]
  | cons a rs ih =>
    cases x with
    | nil =>
      cases y with
      | nil => simp [dot, vadd]
      | cons b ys => simp at h
    | cons b xs =>
      cases y with
      | nil => simp at h
      | cons c ys =>
        have h2 := ih xs ys (by simpa using h)
        simp [dot, vadd] at h2 ⊢
        rw [h2]
        ring

theorem addUnit_cons_zero (a : ℚ) (v : Vec) : addUnit (a :: v) 0 = (a + 1) :: v := by
  simp [addUnit]

theorem addUnit_cons_succ (a : ℚ) (v : Vec) (c : Nat) :
    addUnit (a :: v) (c + 1) = a :: addUnit v c := by
  simp [addUnit]

theorem addUnit_length (v : Vec) (c : Nat) : (addUnit v c).length = v.length := by
  simp [addUnit]

theorem dot_unit (row : Vec) (m c : Nat) (hr : row.length = m) (hc : c < m) :
    dot row (addUnit (zerosVec m) c) = row.getD c 0 := by
  induction row generalizing m c with
  | nil =>
    exfalso
    simp at hr
    omega
  | cons a rs ih =>
    cases m with
    | zero => omega
    | succ m =>
      cases c with
      | zero =>
        have hz := dot_zeros rs m
        simp [dot] at hz
        simp [zerosVec_succ, addUnit_cons_zero, dot, hz]
      | succ c =>
        have h2 : rs.length = m := by simpa using hr
        simpa [zerosVec_succ, addUnit_cons_succ, dot] using ih m c h2 (by omega)

theorem matvec_getD (M : Mat) (x : Vec) (r : Nat) :
    (matvec M x).getD r 0 = dot (M.getD r []) x := by
  induction M generalizing r with
  | nil => simp [matvec, dot]
  | cons row M ih =>
    cases r with
    | zero => simp [matvec]
    | succ r => simpa [matvec] using ih r

theorem matvec_length (M : Mat) (x : Vec) : (matvec M x).length = M.length := by
  simp [matvec]

theorem lc_foldl_length (l : List (Mat × Vec)) (z : Vec)
    (h : ∀ p ∈ l, (matvec p.1 p.2).length = z.length) :
    (l.foldl (fun acc p => vadd acc (matvec p.1 p.2)) z).length = z.length := by
  induction l generalizing z with
  | nil => rfl
  | cons p l ih =>
    have hz : (vadd z (matvec p.1 p.2)).length = z.length := by
      rw [vadd_length, h p (by simp)]
      omega
    have := ih (vadd z (matvec p.1 p.2)) (by
      intro q hq
      rw [hz]
      exact h q (by simp [hq]))
    simpa [hz] using this

theorem lc_foldl_getD (l : List (Mat × Vec)) (z : Vec) (r : Nat)
    (h : ∀ p ∈ l, (matvec p.1 p.2).length = z.length) :
    (l.foldl (fun acc p => vadd acc (matvec p.1 p.2)) z).getD r 0 =
      z.getD r 0 + (l.map fun p => (matvec p.1 p.2).getD r 0).sum := by
  induction l generalizing z with
  | nil => simp
  | cons p l ih =>
    have hz : (vadd z (matvec p.1 p.2)).length = z.length := by
      rw [vadd_length, h p (by simp)]
      omega
    have step := ih (vadd z (matvec p.1 p.2)) (by
      intro q hq
      rw [hz]
      exact h q (by simp [hq]))
    have hv := vadd_getD z (matvec p.1 p.2) (h p (by simp)).symm r
    simp only [List.foldl_cons, step, hv, List.map_cons, List.sum_cons]
    ring

theorem compute_error_getD (A : List Mat) (b : Vec) (vs : List Vec) (r : Nat)
    (h : ∀ p ∈ A.zip vs, (matvec p.1 p.2).length = b.length) :
    (LinearFactor.compute_error A b vs).getD r 0 =
      ((A.zip vs).map fun p => (matvec p.1 p.2).getD r 0).sum - b.getD r 0 := by
  unfold LinearFactor.compute_error
  have hlen : ∀ p ∈ A.zip vs, (matvec p.1 p.2).length = (zerosVec b.length).length := by
    intro p hp
    rw [zerosVec_length]
    exact h p hp
  have h1 := lc_foldl_length (A.zip vs) (zerosVec b.length) hlen
  rw [vsub_getD _ _ (by rw [h1, zerosVec_length]),
    lc_foldl_getD (A.zip vs) (zerosVec b.length) r hlen, zerosVec_getD]
  ring

theorem compute_error_length (A : List Mat) (b : Vec) (vs : List Vec)
    (h : ∀ p ∈ A.zip vs, (matvec p.1 p.2).length = b.length) :
    (LinearFactor.compute_error A b vs).length = b.length := by
  unfold LinearFactor.compute_error
  have hlen : ∀ p ∈ A.zip vs, (matvec p.1 p.2).length = (zerosVec b.length).length := by
    intro p hp
    rw [zerosVec_length]
    exact h p hp
  have h1 := lc_foldl_length (A.zip vs) (zerosVec b.length) hlen
  rw [vsub_length, h1, zerosVec_length]
  omega

theorem range_map_getD {α : Type} (l : List α) (d : α) :
    (List.range l.length).map (fun k => l.getD k d) = l := by
  induction l with
  | nil => rfl
  | cons a l ih =>
    rw [List.length_cons, List.range_succ_eq_map, List.map_cons, List.map_map]
    have hc : ((fun k => (a :: l).getD k d) ∘ Nat.succ) = fun k => l.getD k d := by
      funext k
      simp
    simp only [hc, List.getD_cons_zero, ih]

theorem zip_set {α β : Type} (l1 : List α) (l2 : List β) (i : Nat) (w : β)
    (d : α) (hi : i < l1.length) (hl : l1.length = l2.length) :
    l1.zip (l2.set i w) = (l1.zip l2).set i (l1.getD i d, w) := by
  induction l1 generalizing l2 i with
  | nil => simp at hi
  | cons a l1 ih =>
    cases l2 with
    | nil => simp at hl
    | cons b l2 =>
      cases i with
      | zero => simp [List.zip_cons_cons]
      | succ i =>
        simp only [List.set_cons_succ, List.zip_cons_cons, List.getD_cons_succ]
        rw [ih l2 i (by simpa using hi) (by simpa using hl)]

theorem sum_map_set {α : Type} (l : List α) (i : Nat) (x : α) (f : α → ℚ)
    (d : α) (hi : i < l.length) :
    ((l.set i x).map f).sum = (l.map f).sum - f (l.getD i d) + f x := by
  induction l generalizing i with
  | nil => simp at hi
  | cons a l ih =>
    cases i with
    | zero =>
      simp only [List.set_cons_zero, List.map_cons, List.sum_cons, List.getD_cons_zero]
      ring
    | succ i =>
      simp only [List.set_cons_succ, List.map_cons, List.sum_cons, List.getD_cons_succ]
      rw [ih i (by simpa using hi)]
      ring

theorem zip_getD {α β : Type} (l1 : List α) (l2 : List β) (i : Nat)
    (dA : α) (dB : β) (hi : i < l1.length) (hl : l1.length = l2.length) :
    (l1.zip l2).getD i (dA, dB) = (l1.getD i dA, l2.getD i dB) := by
  induction l1 generalizing l2 i with
  | nil => simp at hi
  | cons a l1 ih =>
    cases l2 with
    | nil => simp at hl
    | cons b l2 =>
      cases i with
      | zero => simp [List.zip_cons_cons]
      | succ i =>
        simp only [List.zip_cons_cons, List.getD_cons_succ]
        exact ih l2 i (by simpa using hi) (by simpa using hl)

theorem getD_map_of_lt {α β : Type} (l : List α) (f : α → β) (i : Nat)
    (d : β) (d0 : α) (hi : i < l.length) :
    (l.map f).getD i d = f (l.getD i d0) := by
  induction l generalizing i with
  | nil => simp at hi
  | cons a l ih =>
    cases i with
    | zero => simp
    | succ i =>
      simp only [List.map_cons, List.getD_cons_succ]
      exact ih i (by simpa using hi)

theorem zeroDeltas_cons (v : Variable) (vs : List Variable) :
    FactorBase.zeroDeltas (v :: vs) =
      zerosVec v.vtype.local_parameter_dim :: FactorBase.zeroDeltas vs := rfl

theorem zeroDeltas_length (vs : List Variable) :
    (FactorBase.zeroDeltas vs).length = vs.length := by
  simp [FactorBase.zeroDeltas]

theorem zip3_retract_zeros (vs : List Variable) (values : List Vec)
    (h : List.Forall₂ TrivialFor vs values) :
    (zip3 vs values (FactorBase.zeroDeltas vs)).map
        (fun t => t.1.vtype.add_local t.2.1 t.2.2) = values := by
  induction h with
  | nil => rfl
  | @cons v x vs2 values2 hv h2 ih =>
    obtain ⟨h1, hld, hx⟩ := hv
    rw [zeroDeltas_cons]
    simp only [zip3, List.map_cons]
    rw [h1, hld, ← hx, vadd_zeros, ih]

theorem zip3_retract_set (vs : List Variable) (values : List Vec) (i : Nat)
    (u : Vec) (h : List.Forall₂ TrivialFor vs values) (hi : i < vs.length) :
    (zip3 vs values ((FactorBase.zeroDeltas vs).set i u)).map
        (fun t => t.1.vtype.add_local t.2.1 t.2.2) =
      values.set i (vadd (values.getD i []) u) := by
  induction h generalizing i with
  | nil => simp at hi
  | @cons v x vs2 values2 hv h2 ih =>
    obtain ⟨h1, hld, hx⟩ := hv
    cases i with
    | zero =>
      rw [zeroDeltas_cons]
      simp only [List.set_cons_zero, zip3, List.map_cons, List.getD_cons_zero]
      rw [h1, zip3_retract_zeros vs2 values2 h2]
    | succ i =>
      rw [zeroDeltas_cons]
      simp only [List.set_cons_succ, zip3, List.map_cons, List.getD_cons_succ]
      rw [h1, hld, ← hx, vadd_zeros, ih i (by simpa using hi)]

theorem forall₂_forall_fst {α β : Type} {R : α → β → Prop} {P : α → Prop}
    {l1 : List α} {l2 : List β} (h : List.Forall₂ R l1 l2)
    (himp : ∀ a b, R a b → P a) : ∀ a ∈ l1, P a := by
  induction h with
  | nil => simp
  | cons hv h2 ih =>
    intro a ha
    rcases ha with _ | ha
    · exact himp _ _ hv
    · exact ih a (by assumption)

/-- CLAIM C4: for a `LinearFactor` whose connected variables all have
trivial tangent spaces (retraction is ordinary vector addition and the
local parameter dimension equals the parameter dimension, which is the
length of the corresponding value), `compute_error_jacobians` evaluated at
any variable values returns, for each connected variable `i`, a Jacobian
block exactly equal to the coefficient matrix `A_i`. -/
theorem linear_jacobians_eq (vs : List Variable) (A : List Mat) (b : Vec)
    (values : List Vec)
    (hTriv : List.Forall₂ TrivialFor vs values)
    (hA : List.Forall₂
      (fun Ai x => Ai.length = b.length ∧ ∀ row ∈ Ai, row.length = x.length)
      A values) :
    FactorBase.compute_error_jacobians vs (LinearFactor.compute_error A b) values = A := by
  have hlen1 : vs.length = values.length := hTriv.length_eq
  have hlen2 : A.length = values.length := hA.length_eq
  have hAll : ∀ Ai ∈ A, Ai.length = b.length :=
    forall₂_forall_fst hA (fun Ai x hr => hr.1)
  have hzip : ∀ (w : List Vec), ∀ p ∈ A.zip w, (matvec p.1 p.2).length = b.length := by
    intro w p hp
    rw [matvec_length]
    exact hAll p.1 (List.of_mem_zip hp).1
  set g := FactorBase.compute_cost_with_local_delta vs (LinearFactor.compute_error A b) values with hgdef
  set x0 := FactorBase.zeroDeltas vs with hx0def
  have hx0len : x0.length = vs.length := zeroDeltas_length vs
  have hg0 : g x0 = LinearFactor.compute_error A b values := by
    rw [hgdef, hx0def]
    unfold FactorBase.compute_cost_with_local_delta
    rw [zip3_retract_zeros vs values hTriv]
  have hgxlen : (g x0).length = b.length := by
    rw [hg0]
    exact compute_error_length A b values (hzip values)
  show FactorBase.jacfwd g x0 = A
  unfold FactorBase.jacfwd
  apply List.ext_getElem
  · simp [hx0len, hlen1, hlen2]
  intro i hi1 hi2
  simp only [List.getElem_map, List.getElem_range, List.length_map, List.length_range] at hi1 ⊢
  have hiv : i < vs.length := by omega
  have hival : i < values.length := by omega
  have hiA : i < A.length := hi2
  -- pointwise data at index i
  have hziplen : i < (A.zip values).length := by
    rw [List.length_zip]
    omega
  have hpair : (A.zip values).getD i ([], []) = (A.getD i [], values.getD i []) :=
    zip_getD A values i [] [] hiA hlen2
  have hmem : ((A.zip values).getD i ([], [])) ∈ A.zip values := by
    rw [List.getD_eq_getElem _ _ hziplen]
    exact List.getElem_mem hziplen
  have hRi := (List.forall₂_iff_zip.mp hA).2 (by rw [hpair] at hmem; exact hmem)
  have hTi : TrivialFor (vs.getD i default) (values.getD i []) := by
    have hziplen2 : i < (vs.zip values).length := by
      rw [List.length_zip]
      omega
    have hpair2 : (vs.zip values).getD i (default, []) = (vs.getD i default, values.getD i []) :=
      zip_getD vs values i default [] hiv hlen1
    have hmem2 : ((vs.zip values).getD i (default, [])) ∈ vs.zip values := by
      rw [List.getD_eq_getElem _ _ hziplen2]
      exact List.getElem_mem hziplen2
    exact (List.forall₂_iff_zip.mp hTriv).2 (by rw [hpair2] at hmem2; exact hmem2)
  set Ai := A.getD i [] with hAidef
  set xi := values.getD i [] with hxidef
  have hAiget : A[i] = Ai := (List.getD_eq_getElem A [] hiA).symm
  have hAilen : Ai.length = b.length := hRi.1
  have hrows : ∀ row ∈ Ai, row.length = xi.length := hRi.2
  set tld := (vs.getD i default).vtype.local_parameter_dim with htld
  have hldeq : tld = xi.length := by
    obtain ⟨hadd, hld, hx⟩ := hTi
    omega
  have hx0i : x0.getD i [] = zerosVec tld := by
    rw [hx0def]
    unfold FactorBase.zeroDeltas
    exact getD_map_of_lt vs _ i [] default hiv
  rw [hAiget]
  apply List.ext_getElem
  · simp [hgxlen, hAilen]
  intro r hr1 hr2
  simp only [List.getElem_map, List.getElem_range, List.length_map,
    List.length_range] at hr1 hr2 ⊢
  set row := Ai.getD r [] with hrowdef
  have hrowget : Ai[r] = row := (List.getD_eq_getElem Ai [] hr2).symm
  have hrowmem : row ∈ Ai := by
    rw [hrowdef, List.getD_eq_getElem Ai [] hr2]
    exact List.getElem_mem hr2
  have hrowlen : row.length = xi.length := hrows row hrowmem
  have hx0ilen : (x0.getD i []).length = tld := by
    rw [hx0i, zerosVec_length]
  rw [hrowget]
  apply List.ext_getElem
  · simp only [List.length_map, List.length_range]
    omega
  intro c hc1 hc2
  simp only [List.getElem_map, List.getElem_range, List.length_map,
    List.length_range] at hc1 hc2 ⊢
  have hctld : c < tld := by omega
  set u := addUnit (zerosVec tld) c with hudef
  have hu : addUnit (x0.getD i []) c = u := by rw [hx0i]
  have hulen : u.length = tld := by rw [hudef, addUnit_length, zerosVec_length]
  have hset : g (x0.set i u) =
      LinearFactor.compute_error A b (values.set i (vadd xi u)) := by
    rw [hgdef, hx0def]
    unfold FactorBase.compute_cost_with_local_delta
    rw [zip3_retract_set vs values i u hTriv hiv]
  rw [hu, hset, hg0]
  set w := vadd xi u with hwdef
  rw [compute_error_getD A b (values.set i w) r (hzip _),
    compute_error_getD A b values r (hzip _)]
  rw [zip_set A values i w [] hiA hlen2, ← hAidef]
  rw [sum_map_set (A.zip values) i (Ai, w) _ ([], []) hziplen]
  rw [hpair]
  simp only [matvec_getD, ← hxidef, ← hrowdef]
  have hdotw : dot row w = dot row xi + row.getD c 0 := by
    rw [hwdef, dot_vadd row xi u (by omega)]
    rw [hudef, dot_unit row tld c (by omega) hctld]
  rw [hdotw, ← List.getD_eq_getElem row 0 (by omega)]
  ring

/-- CLAIM C2: two factors have equal `group_key`s exactly when they agree on
concrete factor type, on the (variable class, variable parameter dimension)
pair of every connected variable, and on `error_dim`; numeric data such as
the entries of `scale_tril_inv` plays no role. -/
theorem group_key_eq_iff (f g : FactorView) :
    FactorBase.group_key f = FactorBase.group_key g ↔
      (f.factor_class = g.factor_class ∧
       f.«variables».map (fun v => (v.vtype.name, v.vtype.parameter_dim)) =
         g.«variables».map (fun v => (v.vtype.name, v.vtype.parameter_dim)) ∧
       FactorBase.error_dim f = FactorBase.error_dim g) := by
  constructor
  · intro h
    have h1 := congrArg GroupKey.factor_type h
    have h2 := congrArg GroupKey.secondary_key h
    refine ⟨h1, ?_, ?_⟩
    · exact congrArg Prod.fst h2
    · exact congrArg Prod.snd h2
  · intro ⟨h1, h2, h3⟩
    unfold FactorBase.group_key
    rw [h1, h2, h3]

theorem zip_append_of_length_eq {α β : Type} (l1 : List α) (l2 l3 : List β)
    (h : l1.length = l2.length) : l1.zip (l2 ++ l3) = l1.zip l2 := by
  induction l1 generalizing l2 with
  | nil => simp
  | cons a l1 ih =>
    cases l2 with
    | nil => simp at h
    | cons b l2 =>
      simp only [List.cons_append, List.zip_cons_cons]
      rw [ih l2 (by simpa using h)]

/-- CLAIM C1: round-trip.  For every instance of the module's concrete
factor type `LinearFactor`, `unflatten` applied to the output of `flatten`
succeeds (so the reconstructed factor has the same concrete type — the
whole pipeline runs through `LinearFactor`'s own classmethods and ends in
`LinearFactor(**kwargs)`), reproduces the numeric field values
(`scale_tril_inv`, `A_matrices`, `b`) and the static metadata exactly, and
fills each connected-variable slot with a newly constructed placeholder
instance of the recorded variable class — type identity only, none of the
original variables' state. -/
theorem roundtrip_flatten_unflatten (vs : List Variable) (sti : NDArray)
    (A : List Mat) (b : Vec) :
    (LinearFactor.flatten (LinearFactor.instDict vs sti A b)).bind
        (fun p => LinearFactor.unflatten p.2 p.1) =
      some (LinearFactor.instDict
        ((vs.map Variable.vtype).map VariableType.construct) sti A b) := by
  simp [LinearFactor.flatten, LinearFactor.unflatten, FactorBase.flatten,
    FactorBase.flattenSt, FactorBase.unflatten,
    LinearFactor.instDict, LinearFactor.static_fields, LinearFactor.init,
    LinearFactor.fieldNames, dictGet, dictPop, dictAssign,
    kdictOfPairs, kdictAssign, kdictPop, kwargsMerge, stringKeys, pyKeyEq]

/-- CLAIM C3: `LinearFactor.compute_error`, given one value per connected
variable, returns `Σ_i A_i · value_i − b` (stated entrywise), and in the
concrete scenario — `A` the 2×2 identity, `b = [1, 1]`, one 2-D variable —
it returns `[0, 0]` at `x = [1, 1]` and `[-1, -1]` at `x = [0, 0]`. -/
theorem linear_compute_error_spec (A : List Mat) (b : Vec) (vs : List Vec)
    (r : Nat) (h : ∀ p ∈ A.zip vs, (matvec p.1 p.2).length = b.length) :
    ((LinearFactor.compute_error A b vs).getD r 0 =
        ((A.zip vs).map fun p => (matvec p.1 p.2).getD r 0).sum - b.getD r 0) ∧
      LinearFactor.compute_error A0 B0 [[1, 1]] = [0, 0] ∧
      LinearFactor.compute_error A0 B0 [[0, 0]] = [-1, -1] := by
  refine ⟨compute_error_getD A b vs r h, ?_, ?_⟩ <;>
    norm_num [LinearFactor.compute_error, vadd, vsub, matvec, dot, zerosVec,
      A0, B0, List.replicate, List.zipWith_cons_cons]

/-- Witness for C3: the theorem applied to the concrete scenario factor,
with the shape hypothesis discharged by computation. -/
theorem linear_compute_error_spec_witness :
    ((LinearFactor.compute_error A0 B0 [[1, 1]]).getD 0 0 =
        ((A0.zip [[1, 1]]).map fun p => (matvec p.1 p.2).getD 0 0).sum - B0.getD 0 0) ∧
      LinearFactor.compute_error A0 B0 [[1, 1]] = [0, 0] ∧
      LinearFactor.compute_error A0 B0 [[0, 0]] = [-1, -1] :=
  linear_compute_error_spec A0 B0 [[1, 1]] 0 (by decide)

/-- Witness for C4: for the concrete trivial-tangent scenario factor, the
Jacobian at the value `[3, 5]` is exactly the coefficient matrix tuple. -/
theorem linear_jacobians_witness :
    FactorBase.compute_error_jacobians [var0]
        (LinearFactor.compute_error A0 B0) [[3, 5]] = A0 :=
  linear_jacobians_eq [var0] A0 B0 [[3, 5]]
    (List.Forall₂.cons ⟨rfl, rfl, rfl⟩ List.Forall₂.nil)
    (List.Forall₂.cons ⟨by decide, by decide⟩ List.Forall₂.nil)

/-- CLAIM C5: for every factor (its connected variables and its
dynamically dispatched `compute_error`) and any variable values,
`compute_error_jacobians` is obtained by differentiating the
retract-then-`compute_error` composite at the all-zero local perturbation
vectors, and — whenever the error at the zero perturbation has length
`error_dim` (validity of the inputs) — it returns exactly one Jacobian
block per connected variable, each of shape
`(error_dim, variable.get_local_parameter_dim())`. -/
theorem jacobian_blocks_shape (f : FactorView) (ce : List Vec → Vec)
    (values : List Vec)
    (h : (FactorBase.compute_cost_with_local_delta f.«variables» ce values
            (FactorBase.zeroDeltas f.«variables»)).length =
          FactorBase.error_dim f) :
    (FactorBase.compute_error_jacobians f.«variables» ce values =
        FactorBase.jacfwd
          (FactorBase.compute_cost_with_local_delta f.«variables» ce values)
          (FactorBase.zeroDeltas f.«variables»)) ∧
      (FactorBase.compute_error_jacobians f.«variables» ce values).length =
        f.«variables».length ∧
      ∀ i, i < f.«variables».length →
        ((FactorBase.compute_error_jacobians f.«variables» ce values).getD i []).length =
            FactorBase.error_dim f ∧
          ∀ row ∈ (FactorBase.compute_error_jacobians f.«variables» ce values).getD i [],
            row.length = (f.«variables».getD i default).vtype.local_parameter_dim := by
  refine ⟨rfl, ?_, ?_⟩
  · simp [FactorBase.compute_error_jacobians, FactorBase.jacfwd, zeroDeltas_length]
  intro i hi
  have hlenJ : (FactorBase.compute_error_jacobians f.«variables» ce values).length =
      f.«variables».length := by
    simp [FactorBase.compute_error_jacobians, FactorBase.jacfwd, zeroDeltas_length]
  have hblk : (FactorBase.compute_error_jacobians f.«variables» ce values).getD i [] =
      (List.range (FactorBase.compute_cost_with_local_delta f.«variables» ce values
          (FactorBase.zeroDeltas f.«variables»)).length).map fun r =>
        (List.range (((FactorBase.zeroDeltas f.«variables»).getD i []).length)).map fun c =>
          (FactorBase.compute_cost_with_local_delta f.«variables» ce values
              ((FactorBase.zeroDeltas f.«variables»).set i
                (addUnit ((FactorBase.zeroDeltas f.«variables»).getD i []) c))).getD r 0 -
            (FactorBase.compute_cost_with_local_delta f.«variables» ce values
              (FactorBase.zeroDeltas f.«variables»)).getD r 0 := by
    have hi2 : i < (FactorBase.compute_error_jacobians f.«variables» ce values).length := by
      omega
    rw [List.getD_eq_getElem _ _ hi2]
    simp [FactorBase.compute_error_jacobians, FactorBase.jacfwd]
  constructor
  · rw [hblk]
    simp [h]
  · intro row hrow
    rw [hblk] at hrow
    obtain ⟨r, hr, hrow2⟩ := List.mem_map.mp hrow
    rw [← hrow2]
    simp only [List.length_map, List.length_range]
    have hzd : (FactorBase.zeroDeltas f.«variables»).getD i [] =
        zerosVec ((f.«variables».getD i default).vtype.local_parameter_dim) := by
      unfold FactorBase.zeroDeltas
      exact getD_map_of_lt f.«variables» _ i [] default hi
    rw [hzd, zerosVec_length]

/-- Witness for C5: the concrete scenario factor has one Jacobian block,
of two rows (its `error_dim`). -/
theorem jacobian_blocks_shape_witness :
    (FactorBase.compute_error_jacobians [var0]
        (LinearFactor.compute_error A0 B0) [[1, 1]]).length = 1 ∧
      ((FactorBase.compute_error_jacobians [var0]
          (LinearFactor.compute_error A0 B0) [[1, 1]]).getD 0 []).length = 2 :=
  ⟨(jacobian_blocks_shape f0 (LinearFactor.compute_error A0 B0) [[1, 1]] (by decide)).2.1,
   ((jacobian_blocks_shape f0 (LinearFactor.compute_error A0 B0) [[1, 1]] (by decide)).2.2
      0 (by decide)).1⟩

/-- CLAIM C6: `error_dim` equals the trailing dimension of
`scale_tril_inv`'s shape — also under a leading batch dimension, since any
shape ending in `n` gives `error_dim = n` — and, for valid inputs (operand
shapes compatible and the factor well-formed, `|b| = error_dim`), the
length of `compute_error`'s output equals `error_dim`. -/
theorem error_dim_consistency (f : FactorView) (sh : List Nat) (n : Nat)
    (A : List Mat) (b : Vec) (vs : List Vec) :
    (f.scale_tril_inv.shape = sh ++ [n] → FactorBase.error_dim f = n) ∧
      ((∀ p ∈ A.zip vs, (matvec p.1 p.2).length = b.length) →
        b.length = FactorBase.error_dim f →
        (LinearFactor.compute_error A b vs).length = FactorBase.error_dim f) := by
  constructor
  · intro h
    unfold FactorBase.error_dim trailingDim
    rw [h]
    simp
  · intro h1 h2
    rw [compute_error_length A b vs h1, h2]

/-- Witness for C6: the concrete scenario factor, whose `scale_tril_inv`
has shape `[2, 2] = [2] ++ [2]`. -/
theorem error_dim_consistency_witness :
    FactorBase.error_dim f0 = 2 ∧
      (LinearFactor.compute_error A0 B0 [[1, 1]]).length = 2 :=
  ⟨(error_dim_consistency f0 [2] 2 A0 B0 [[1, 1]]).1 rfl,
   (error_dim_consistency f0 [2] 2 A0 B0 [[1, 1]]).2 (by decide) (by decide)⟩

/-- CLAIM C7 counterexample: `compute_error` called with zero values on the
concrete scenario factor (which has one connected variable) does not fail:
`zip(self.A_matrices, variable_values)` is empty, so it silently returns
`0 − b = [-1, -1]`, a result computed from the truncated pairing — refuting
the claim that an arity mismatch fails immediately. -/
theorem compute_error_arity_counterexample :
    LinearFactor.compute_error A0 B0 [] = [-1, -1] := by
  norm_num [LinearFactor.compute_error, vadd, vsub, matvec, dot, zerosVec,
    A0, B0, List.replicate, List.zipWith_cons_cons]

/-- CLAIM C7 amended: calling `compute_error` with a number of values
different from the number of connected variables does not fail; `zip`
pairs coefficient matrices with values up to the shorter sequence, so
extra values are silently ignored and missing values silently yield the
residual of the truncated pairing (with no values at all, `−b`). -/
theorem compute_error_arity_truncates (A : List Mat) (b : Vec)
    (values extra : List Vec) (h : A.length = values.length) :
    (LinearFactor.compute_error A b (values ++ extra) =
        LinearFactor.compute_error A b values) ∧
      LinearFactor.compute_error A0 B0 [] = [-1, -1] := by
  constructor
  · unfold LinearFactor.compute_error
    rw [zip_append_of_length_eq A values extra h]
  · norm_num [LinearFactor.compute_error, vadd, vsub, matvec, dot, zerosVec,
      A0, B0, List.replicate, List.zipWith_cons_cons]

/-- Witness for the amended C7: the concrete scenario factor with one
surplus value returns the same error as with the matching single value. -/
theorem compute_error_arity_truncates_witness :
    (LinearFactor.compute_error A0 B0 ([[1, 1]] ++ [[9, 9]]) =
        LinearFactor.compute_error A0 B0 [[1, 1]]) ∧
      LinearFactor.compute_error A0 B0 [] = [-1, -1] :=
  compute_error_arity_truncates A0 B0 [[1, 1]] [[9, 9]] (by decide)

/-- CLAIM C8: `flatten` does not mutate its input: for every factor
instance dictionary and every `_static_fields` class attribute, the
instance dictionary after the call — threaded explicitly through
`flattenSt`, since the comprehensions copy and `pop` is applied to the
fresh `array_data` dictionary only — equals the dictionary before the
call, in every branch including the error branches. -/
theorem flatten_no_mutation (static_fields : List String) (v_dict : PyDict) :
    (FactorBase.flattenSt static_fields v_dict).2 = v_dict := by
  unfold FactorBase.flattenSt
  simp only []
  split <;> (try split) <;> rfl

/-- CLAIM C9 counterexample: two distinct live instances (different object
identities) of the same concrete factor type with equal field values
compare equal under the dataclass `__eq__` but do not hash to the same
value, because `__init_subclass__` installs the identity-based
`object.__hash__` — refuting value-based hashing. -/
theorem hash_value_counterexample :
    FactorBase.eqOf ⟨1, d0⟩ ⟨2, d0⟩ ∧
      ¬ FactorBase.hashOf ⟨1, d0⟩ = FactorBase.hashOf ⟨2, d0⟩ :=
  ⟨rfl, by decide⟩

/-- CLAIM C9 amended: concrete factor subtypes get the value-based
`__eq__` of the frozen dataclass, but `__init_subclass__` overwrites
`__hash__` with `object.__hash__`, so hashing is identity-based: two
instances with equal field values hash equally exactly when they are the
same object.  (This guarantees hashability — needed for the PyTree
registry — independently of the unhashable array fields, but not a
value-based lookup key across distinct instances.) -/
theorem hash_identity_based (d1 : PyDict) (i j : Nat) :
    FactorBase.eqOf ⟨i, d1⟩ ⟨j, d1⟩ ∧
      (FactorBase.hashOf ⟨i, d1⟩ = FactorBase.hashOf ⟨j, d1⟩ ↔ i = j) :=
  ⟨rfl, Iff.rfl⟩

/-- CLAIM C10 counterexample: flattening the concrete scenario
`LinearFactor` — whose `_static_fields` is the empty default — yields
exactly the children `(scale_tril_inv, A_matrices, b)`, with no frozenset
among them: `_static_fields`, being an `init=False` field with a plain
default, is only a class attribute, absent from the instance dictionary
`vars(v)` that `flatten` iterates. -/
theorem static_fields_children_counterexample :
    LinearFactor.flatten d0 =
        some ([.nd S0, .mats A0, .vec B0],
              [.str "scale_tril_inv", .str "A_matrices", .str "b",
               .str "variabletypes", .vtypes [V2]]) ∧
      hasFrozset [.nd S0, .mats A0, .vec B0] = false := by
  constructor
  · simp [LinearFactor.flatten, FactorBase.flatten, FactorBase.flattenSt,
      LinearFactor.instDict, LinearFactor.static_fields, dictGet, dictPop,
      dictAssign, d0, var0]
  · rfl

/-- CLAIM C10 amended: for every `LinearFactor`, `flatten` returns exactly
the numeric children `(scale_tril_inv, A_matrices, b)` and a treedef of
their field names plus the `variabletypes` entry; the `_static_fields`
frozenset never appears among the children (and hence is never passed
back to the constructor), because an `init=False` dataclass field with a
plain default is never assigned by the generated `__init__` and so lives
only on the class, not in the instance dictionary. -/
theorem flatten_children_no_static_fields (vs : List Variable) (sti : NDArray)
    (A : List Mat) (b : Vec) :
    LinearFactor.flatten (LinearFactor.instDict vs sti A b) =
        some ([.nd sti, .mats A, .vec b],
              [.str "scale_tril_inv", .str "A_matrices", .str "b",
               .str "variabletypes", .vtypes (vs.map Variable.vtype)]) ∧
      hasFrozset [.nd sti, .mats A, .vec b] = false := by
  constructor
  · simp [LinearFactor.flatten, FactorBase.flatten, FactorBase.flattenSt,
      LinearFactor.instDict, LinearFactor.static_fields, dictGet, dictPop,
      dictAssign]
  · rfl
